import Mathlib

/-!
Verification of the MADNESS core: a shallow embedding of the function-tree
operations of `src/unnamed/part_000` (FunctionNode / FunctionImpl) and of the
reliable messaging layer of `src/src/lib/world/worldrmi.cc` (RMI), together
with theorems settling the specification claims.

Modelling conventions:
* machine floating point values (`double`) are modelled as rationals `ℚ`;
* a dense coefficient tensor is modelled by the entries of its scaling
  sub-block `s0` (the slice `cdata.s0` of the source) together with the list
  of its remaining (wavelet) entries; slice reads/writes of `s0` become field
  accesses.  The dense tensor algebra itself (``filter``, ``transform``,
  slice gather) is an external black box in the repository and is kept
  abstract here as explicit function parameters;
* fallible code (`MADNESS_EXCEPTION`) returns `Except String`.
-/

namespace Madness

/-- A dense coefficient tensor: the entries of the scaling sub-block `s0`
(the `cdata.s0` slice) and the remaining (wavelet) entries.  A pure
scaling-coefficient tensor of shape `k^d` is one whose `wav` part is empty. -/
structure MTensor where
  s0 : List ℚ
  wav : List ℚ
deriving DecidableEq, Repr

namespace MTensor

/-- The tensor has some entries (`Tensor::size > 0`). -/
def size (t : MTensor) : Nat := t.s0.length + t.wav.length

/-- Elementwise `this = alpha*this + beta*other` (`Tensor::gaxpy`). -/
def gaxpy (alpha : ℚ) (t u : MTensor) (beta : ℚ) : MTensor :=
  ⟨List.zipWith (fun a b => alpha * a + beta * b) t.s0 u.s0,
   List.zipWith (fun a b => alpha * a + beta * b) t.wav u.wav⟩

/-- Elementwise scaling (`Tensor::scale`). -/
def scale (alpha : ℚ) (t : MTensor) : MTensor :=
  ⟨t.s0.map (fun a => alpha * a), t.wav.map (fun a => alpha * a)⟩

/-- Elementwise addition (`Tensor::operator+=`). -/
def add (t u : MTensor) : MTensor :=
  ⟨List.zipWith (· + ·) t.s0 u.s0, List.zipWith (· + ·) t.wav u.wav⟩

/-- Overwrite the scaling sub-block with zeros (`d(cdata.s0) = 0.0`). -/
def zeroS0 (t : MTensor) : MTensor :=
  ⟨List.replicate t.s0.length 0, t.wav⟩

/-- The scaling sub-block holds exactly zeros. -/
def s0IsZero (t : MTensor) : Prop := ∀ a ∈ t.s0, a = 0

instance (t : MTensor) : Decidable t.s0IsZero := by
  unfold s0IsZero; infer_instance

/-- A zero tensor with the same shape as `t`. -/
def zeroLike (t : MTensor) : MTensor :=
  ⟨List.replicate t.s0.length 0, List.replicate t.wav.length 0⟩

/-- Two tensors have the same shape (our flattened model only tracks the
lengths of the two entry lists). -/
def sameShape (t u : MTensor) : Prop :=
  t.s0.length = u.s0.length ∧ t.wav.length = u.wav.length

end MTensor

/-- Tree-node identifier `(n, l)`: refinement level and translation vector.
Modelled from the spec: `Key` (mra/key.h) is only used by the embedded code
through its level, its translation vector and `distsq`. -/
structure KeyM where
  n : Nat
  l : List ℤ
deriving DecidableEq, Repr

/-- Modelled from the spec: `Key::distsq` (mra/key.h, not under `src/`), the
squared distance of the translation vector from the origin. -/
def KeyM.distsq (k : KeyM) : ℤ := (k.l.map (fun x => x * x)).sum

/-- `FunctionNode`: per-key record of coefficients, interior flag and cached
subtree norm (src/unnamed/part_000:330-490).  An empty coefficient tensor
(`_coeffs.size == 0`) is modelled as `none`. -/
structure FunctionNode where
  coeffs : Option MTensor
  hasChildrenF : Bool
  normTreeF : ℚ
deriving DecidableEq, Repr

namespace FunctionNode

/-- `FunctionNode::has_coeff` (part_000:381). -/
def has_coeff (nd : FunctionNode) : Bool := nd.coeffs.isSome

/-- `FunctionNode::has_children` (part_000:384). -/
def has_children (nd : FunctionNode) : Bool := nd.hasChildrenF

/-- `FunctionNode::clear_coeff` (part_000:437). -/
def clear_coeff (nd : FunctionNode) : FunctionNode := { nd with coeffs := none }

/-- `FunctionNode::gaxpy_inplace` (part_000:449-465): merge `other` into the
node as `this <- alpha*this + beta*other`. -/
def gaxpy_inplace (alpha : ℚ) (nd : FunctionNode) (other : FunctionNode)
    (beta : ℚ) : FunctionNode :=
  let hc := if other.has_children then true else nd.hasChildrenF
  match nd.coeffs, other.coeffs with
  | some c, some oc => { nd with coeffs := some (MTensor.gaxpy alpha c oc beta), hasChildrenF := hc }
  | some c, none => { nd with coeffs := some (MTensor.scale alpha c), hasChildrenF := hc }
  | none, some oc => { nd with coeffs := some (MTensor.scale beta oc), hasChildrenF := hc }
  | none, none => { nd with coeffs := none, hasChildrenF := hc }

/-- The coefficient-merge rule as the specification words it: `this <-
alpha*this + beta*other` elementwise, a missing coefficient tensor standing
for zero (and a node stays coefficient-free when neither side has any). -/
def gaxpyMergeRule (alpha : ℚ) (c oc : Option MTensor) (beta : ℚ) : Option MTensor :=
  match c, oc with
  | none, none => none
  | some x, oc => some (MTensor.gaxpy alpha x (oc.getD x.zeroLike) beta)
  | none, some y => some (MTensor.gaxpy alpha y.zeroLike y beta)

end FunctionNode

/-- `FunctionImpl::truncate_tol` (part_000:862-877): the level-dependent
truncation threshold; an unrecognized `truncate_mode` raises. -/
def truncate_tol (truncate_mode : ℤ) (cell_min_width : ℚ) (tol : ℚ) (lev : Nat) :
    Except String ℚ :=
  if truncate_mode = 0 then
    Except.ok tol
  else if truncate_mode = 1 then
    Except.ok (tol * min 1 ((1/2 : ℚ) ^ lev * cell_min_width))
  else if truncate_mode = 2 then
    Except.ok (tol * min 1 ((1/4 : ℚ) ^ lev * cell_min_width * cell_min_width))
  else
    Except.error "truncate_mode invalid"

/-- The mutable members of `FunctionImpl` relevant to `truncate`. -/
structure ImplState where
  thresh : ℚ
  truncate_mode : ℤ
deriving DecidableEq, Repr

/-- `FunctionImpl::truncate` (part_000:829-834): substitutes the stored
`thresh` for a non-positive `tol`, then spawns `truncate_spawn(key0, tol)`;
the result records the unchanged state, the tolerance actually handed to
`truncate_spawn`, and the fence flag. -/
def truncate (st : ImplState) (tol : ℚ) (fence : Bool) : ImplState × ℚ × Bool :=
  let tol := if tol ≤ 0 then st.thresh else tol
  (st, tol, fence)

/-- `FunctionImpl::standard` (part_000:1732-1748) on one local node: nodes at
level > 0 carrying coefficients have the scaling sub-block zeroed (interior)
or the whole tensor deleted (leaf); everything else is untouched. -/
def standardNode (key : KeyM) (nd : FunctionNode) : FunctionNode :=
  match nd.coeffs with
  | some c =>
      if 0 < key.n then
        if nd.has_children then { nd with coeffs := some c.zeroS0 }
        else nd.clear_coeff
      else nd
  | none => nd

/-- `FunctionImpl::standard` (part_000:1732-1748): walk every local node. -/
def standard (coeffs : List (KeyM × FunctionNode)) : List (KeyM × FunctionNode) :=
  coeffs.map (fun kn => (kn.1, standardNode kn.1 kn.2))

/-- `FunctionNode::accumulate` (part_000:469-484): add `t` into the node's
coefficients; a node that had neither coefficients nor children (and is not
the root) additionally sends `set_has_children_recursive` to its parent.  The
boolean records whether that parent-registration message was issued. -/
def FunctionNode.accumulate (nd : FunctionNode) (t : MTensor) (key : KeyM) :
    FunctionNode × Bool :=
  match nd.coeffs with
  | some c => ({ nd with coeffs := some (MTensor.add c t) }, false)
  | none =>
      ({ nd with coeffs := some t },
       if nd.hasChildrenF = false ∧ 0 < key.n then true else false)

/-- The node record stored by the compress recursion (`FunctionNode` keyed by
its tree level; the translation plays no role in compression). -/
structure CNode where
  level : Nat
  coeff : Option MTensor
  hasChildrenC : Bool
deriving DecidableEq, Repr

/-- `FunctionImpl::compress_op` (part_000:1716-1729).  The gather of the 2^d
child scaling blocks into the `(2k)^d` tensor `d` and the two-scale `filter`
(multiplication by `hgT`) belong to the black-box tensor backend and enter as
the parameters `asm` and `fil`.  The result is the returned (pre-zero)
scaling sub-block `s = copy(d(cdata.s0))` — a pure scaling tensor — together
with the node stored by `coeffs.replace(key, nodeT(d,true))`. -/
def compress_op (fil : MTensor → MTensor) (asm : List MTensor → MTensor)
    (lev : Nat) (v : List MTensor) (nonstandard : Bool) : MTensor × CNode :=
  let d := fil (asm v)
  let s : MTensor := ⟨d.s0, []⟩
  let d := if 0 < lev ∧ nonstandard = false then d.zeroS0 else d
  (s, ⟨lev, some d, true⟩)

mutual
/-- A finite coefficient tree in reconstructed form: leaves carry scaling
coefficients, interior nodes carry their (finitely many) children. -/
inductive CTree where
  | leaf (s : MTensor)
  | node (children : CForest)
deriving DecidableEq
inductive CForest where
  | fnil
  | fcons (hd : CTree) (tl : CForest)
deriving DecidableEq
end

mutual
/-- Modelled from the spec: `FunctionImpl::compress_spawn` is declared at
part_000:1680 but defined outside `src/`; spec §4.4.2 describes it as the
post-order recursion that returns each box's scaling block to its parent,
runs `compress_op` at interior keys, and (when `keepleaves` is false) deletes
leaf scaling coefficients after assembly.  The result is the scaling block
returned to the parent together with the list of nodes left in the
container. -/
def compress_spawn (fil : MTensor → MTensor) (asm : List MTensor → MTensor)
    (nonstandard keepleaves : Bool) : CTree → Nat → MTensor × List CNode
  | .leaf s, lev =>
      (s, [⟨lev, if keepleaves then some s else none, false⟩])
  | .node cs, lev =>
      let rs := compress_spawnF fil asm nonstandard keepleaves cs (lev + 1)
      let r := compress_op fil asm lev (rs.map Prod.fst) nonstandard
      (r.1, r.2 :: (rs.map Prod.snd).flatten)
def compress_spawnF (fil : MTensor → MTensor) (asm : List MTensor → MTensor)
    (nonstandard keepleaves : Bool) : CForest → Nat → List (MTensor × List CNode)
  | .fnil, _ => []
  | .fcons t rest, lev =>
      compress_spawn fil asm nonstandard keepleaves t lev ::
        compress_spawnF fil asm nonstandard keepleaves rest lev
end

/-- `FunctionImpl::compress` (part_000:1670-1676) started at the root key. -/
def compress (fil : MTensor → MTensor) (asm : List MTensor → MTensor)
    (nonstandard keepleaves : Bool) (t : CTree) : List CNode :=
  (compress_spawn fil asm nonstandard keepleaves t 0).2

/-- The black-box collaborators of `FunctionImpl::do_apply`: the neighbor-key
computation with boundary conditions (`neighbor`/`Key::is_valid`, defined
outside `src/`), the operator norm `op->norm`, the kernel `op->apply` and the
Frobenius norm of the tensor backend. -/
structure ApplyEnv where
  neighbor : KeyM → KeyM → KeyM
  valid : KeyM → Bool
  opnorm : Nat → KeyM → ℚ
  opApplyResult : KeyM → KeyM → MTensor → ℚ → MTensor
  normf : MTensor → ℚ

/-- `do_op_args` (part_000:1750-1758). -/
structure do_op_args where
  key : KeyM
  d : KeyM
  dest : KeyM
  tol : ℚ
  fac : ℚ
  cnorm : ℚ
deriving DecidableEq, Repr

/-- `FunctionImpl::do_apply_kernel` (part_000:1760-1773): apply the operator
block and, when the result is large enough, send `accumulate` to the
destination node.  `none` means nothing is accumulated. -/
def do_apply_kernel (env : ApplyEnv) (c : MTensor) (args : do_op_args) :
    Option (KeyM × MTensor) :=
  let result := env.opApplyResult args.key args.d c (args.tol / args.fac / args.cnorm)
  if env.normf result > 3/10 * args.tol / args.fac then some (args.dest, result)
  else none

/-- The periodic-displacement test of `do_apply` (part_000:1793-1799): walk
the axes, and at the first axis whose boundary condition is periodic decide
`!(l_i > lmax || l_i <= -lmax)` and break out of the loop. -/
def periodic_cap (bc : List ℤ) (dl : List ℤ) (lmax : ℤ) : Bool :=
  match bc, dl with
  | [], _ => true
  | _, [] => true
  | b :: brest, li :: lrest =>
      if b = 1 then !(decide (li > lmax) || decide (li ≤ -lmax))
      else periodic_cap brest lrest lmax

/-- The displacement loop of `FunctionImpl::do_apply` (part_000:1786-1820):
collect the `do_apply_kernel` tasks scheduled while walking the displacement
list; both the periodic-cap failure and the screened-out far displacement
`break` out of the loop. -/
def do_apply_go (env : ApplyEnv) (bc : List ℤ) (key : KeyM)
    (cnorm tol : ℚ) (lmax : ℤ) : List KeyM → List do_op_args
  | [] => []
  | d :: rest =>
      let dest := env.neighbor key d
      if periodic_cap bc d.l lmax = false then []
      else if env.valid dest then
        if cnorm * env.opnorm key.n d > tol / 3 then
          ⟨key, d, dest, tol, 3, cnorm⟩ :: do_apply_go env bc key cnorm tol lmax rest
        else if 1 ≤ d.distsq then []
        else do_apply_go env bc key cnorm tol lmax rest
      else do_apply_go env bc key cnorm tol lmax rest

/-- `FunctionImpl::do_apply` (part_000:1776-1829) with `fac = 3` and
`tol = truncate_tol(thresh, key)` precomputed: `lmax = 1 << (level-1)`. -/
def do_apply (env : ApplyEnv) (bc : List ℤ) (key : KeyM) (cnorm tol : ℚ)
    (disp : List KeyM) : List do_op_args :=
  do_apply_go env bc key cnorm tol ((2 : ℤ) ^ (key.n - 1)) disp

/-- A displacement at which the `do_apply` loop stops: either it fails the
periodic cap, or it is a valid screened-out displacement beyond the nearest
neighbors. -/
def apply_breaks (env : ApplyEnv) (bc : List ℤ) (key : KeyM)
    (cnorm tol : ℚ) (lmax : ℤ) (d : KeyM) : Bool :=
  periodic_cap bc d.l lmax = false ||
    (env.valid (env.neighbor key d) &&
      !(decide (cnorm * env.opnorm key.n d > tol / 3)) && decide (1 ≤ d.distsq))

/-- The displacements the `do_apply` loop turns into kernel tasks: valid
destination and passing the `cnorm * opnorm` screen. -/
def apply_emits (env : ApplyEnv) (key : KeyM)
    (cnorm tol : ℚ) (d : KeyM) : Bool :=
  env.valid (env.neighbor key d) && decide (cnorm * env.opnorm key.n d > tol / 3)

namespace RMI

/-- 16-bit sequence-counter increment: `send_counters`/`recv_counters` are
`unsigned short`, so `++counter` wraps modulo 2^16. -/
def bump16 (c : Nat) : Nat := (c + 1) % 65536

/-- A received active message as the server loop sees it: source rank, the
ordered bit of `attr`, the 16-bit sequence stamp `count = attr >> 16`, and an
abstract payload identifying the handler invocation (`func`, buffer). -/
structure QMsg where
  src : Nat
  ordered : Bool
  count : Nat
  payload : Nat
deriving DecidableEq, Repr

/-- The receiver-side state of the RMI server thread of `RMI::run`
(worldrmi.cc:54-182): per-source receive counters, the out-of-order queue
`q` and the accumulated trace of handler invocations in invocation order. -/
structure RecvState where
  recv_counters : Nat → Nat
  q : List QMsg
  dispatched : List QMsg

/-- Initial receiver state: counters zeroed (worldrmi.cc:296), empty queue. -/
def initRecv : RecvState := ⟨fun _ => 0, [], []⟩

/-- Advance the receive counter of one source (`++(recv_counters[src])`). -/
def bumpCounter (cs : Nat → Nat) (src : Nat) : Nat → Nat :=
  fun p => if p = src then bump16 (cs p) else cs p

/-- One arrived message handled by `RMI::run` (worldrmi.cc:107-136): invoke
immediately when unordered or when the stamp matches the receive counter
(advancing it for ordered messages); otherwise park it in the out-of-order
queue, whose overflow is fatal. -/
def processMessage (maxq : Nat) (s : RecvState) (m : QMsg) :
    Except String RecvState :=
  if m.ordered = false ∨ m.count = s.recv_counters m.src then
    Except.ok
      { s with
        recv_counters :=
          if m.ordered then bumpCounter s.recv_counters m.src else s.recv_counters,
        dispatched := s.dispatched ++ [m] }
  else if maxq ≤ s.q.length then
    Except.error "RMI:server: overflowed out-of-order message q"
  else
    Except.ok { s with q := s.q ++ [m] }

/-- The single drain pass over the sorted queue (worldrmi.cc:148-177):
process the messages in order, invoking those whose stamp now matches their
source's counter and saving the rest at the beginning of the queue.  Returns
the final counters, the leftover queue and the pass's invocations in
order. -/
def drainPass (cs : Nat → Nat) : List QMsg → (Nat → Nat) × List QMsg × List QMsg
  | [] => (cs, [], [])
  | m :: rest =>
      if m.count = cs m.src then
        let r := drainPass (bumpCounter cs m.src) rest
        (r.1, r.2.1, m :: r.2.2)
      else
        let r := drainPass cs rest
        (r.1, m :: r.2.1, r.2.2)

/-- The comparison `qmsg::operator<` used by `std::sort` at worldrmi.cc:143.
Modelled from the spec: `qmsg` is declared in worldrmi.h (not under `src/`);
spec §4.1 says the queue "is sorted by sequence", matching the source comment
"Sort queued messages by ascending recv count". -/
def countLe (a b : QMsg) : Prop := a.count ≤ b.count

instance : DecidableRel countLe := fun a b => by
  unfold countLe; infer_instance

instance : IsTotal QMsg countLe :=
  ⟨fun a b => Nat.le_total a.count b.count⟩

instance : IsTrans QMsg countLe :=
  ⟨fun _ _ _ h h2 => Nat.le_trans h h2⟩

/-- One wakeup of the server loop (`RMI::run`, worldrmi.cc:93-180): digest
each message of the arrived batch, then sort the out-of-order queue by
ascending sequence and drain it in a single pass. -/
def processBatch (maxq : Nat) (s : RecvState) (batch : List QMsg) :
    Except String RecvState := do
  let s1 ← batch.foldlM (processMessage maxq) s
  let r := drainPass s1.recv_counters (s1.q.insertionSort countLe)
  Except.ok ⟨r.1, r.2.1, s1.dispatched ++ r.2.2⟩

/-- The whole life of the server thread: a sequence of wakeups, each with the
batch of messages `Testsome` reported. -/
def runServer (maxq : Nat) (batches : List (List QMsg)) :
    Except String RecvState :=
  batches.foldlM (processBatch maxq) initRecv

/-- The sender side of ordering in `RMI::private_isend`
(worldrmi.cc:374-394): under the send mutex each ordered message going to one
destination is stamped with the current `send_counters[dest]` (packed into
the high 16 bits of `attr`), which is then incremented.  Stamping a whole
sequence of ordered payloads for one destination from counter `c`. -/
def stampAll (rank : Nat) (c : Nat) : List Nat → List QMsg
  | [] => []
  | p :: ps => ⟨rank, true, c, p⟩ :: stampAll rank (bump16 c) ps

/-- The ordered messages from source `rank` in a message list, in order. -/
def fromSrc (rank : Nat) (ms : List QMsg) : List QMsg :=
  ms.filter (fun m => m.ordered && m.src == rank)

/-- The per-source invariant of the server loop, for source `r` whose sent
ordered stream is `sent` and whose arrivals so far (among all processed
messages) are `A`: the handlers already invoked for `r`'s ordered messages
are exactly the first `n` sent ones in send order, the receive counter
stands at `n`, every processed ordered message of `r` is either invoked or
parked, and only ordered messages are ever parked. -/
def RecvInv (r : Nat) (sent A : List QMsg) (n : Nat) (s : RecvState) : Prop :=
  fromSrc r s.dispatched = sent.take n ∧
  s.recv_counters r = n ∧
  n ≤ sent.length ∧
  (sent.take n ++ fromSrc r s.q).Perm A ∧
  ∀ msg ∈ s.q, msg.ordered = true

/-- After a drain pass, every ordered message of `r` still parked is
strictly ahead of the receive counter. -/
def PostDrain (r : Nat) (s : RecvState) : Prop :=
  ∀ msg ∈ fromSrc r s.q, s.recv_counters r < msg.count

/-- The reserved point-to-point tags (spec §6 / SafeMPI). -/
inductive MpiTag where
  | rmiTag
  | hugeDatTag
  | hugeAckTag
deriving DecidableEq, Repr

/-- What a transmitted buffer holds: an ordinary user payload, the huge
message control record `{... , rank, nbyte}` addressed to
`RMI::huge_msg_handler`, or the `int nada = 0` acknowledgement. -/
inductive SendBody where
  | user
  | hugeCtl (rank : Nat) (nbyte : Nat)
  | ackZero
deriving DecidableEq, Repr

/-- The transport actions `RMI` performs, in program order.  The two waits
record that `private_isend` blocks on `req_send.Test()` and then on
`req_ack.Test()` before proceeding. -/
inductive MpiAct where
  | iSend (body : SendBody) (nbyte : Nat) (peer : Nat) (tag : MpiTag)
  | iRecv (nbyte : Nat) (peer : Nat) (tag : MpiTag)
  | blockSend (body : SendBody) (nbyte : Nat) (peer : Nat) (tag : MpiTag)
  | waitSendDone
  | waitAckDone
deriving DecidableEq, Repr

/-- The configuration constants of the RMI instance.  `header_len`
(`HEADER_LEN`) and the two C type sizes live in worldrmi.h / the platform
ABI, outside `src/`, so they are parameters here; `max_msg_len_` defaults to
`DEFAULT_MAX_MSG_LEN = 3*512*1024` and is never below 1024
(worldrmi.cc:262-272). -/
structure RmiConfig where
  max_msg_len : Nat
  header_len : Nat
  sizeof_size_t : Nat
  sizeof_int : Nat
  rank : Nat
deriving DecidableEq, Repr

/-- The transport behaviour of `RMI::private_isend` (worldrmi.cc:336-397): a
payload larger than `max_msg_len_` first posts the ACK receive, recursively
eager-sends the `{rank, nbyte}` control record to `huge_msg_handler`
unordered, blocks until the control send and then the ACK complete, and only
then issues the non-blocking send of the real payload on the HUGE_DAT tag; a
payload that fits but cannot hold the header is fatal; anything else is one
non-blocking send on the RMI tag.  (In the source the inner call is
unconditionally recursive; the control record always fits the eager buffer
because `max_msg_len_ >= 1024`, and the model makes the contrary case an
explicit error instead of diverging.) -/
def private_isend (cfg : RmiConfig) (body : SendBody) (nbyte : Nat)
    (dest : Nat) : Except String (List MpiAct) :=
  if _h : cfg.max_msg_len < nbyte then
    if _h2 : cfg.header_len + 2 * cfg.sizeof_size_t ≤ cfg.max_msg_len then do
      let ctl ← private_isend cfg (SendBody.hugeCtl cfg.rank nbyte)
        (cfg.header_len + 2 * cfg.sizeof_size_t) dest
      Except.ok
        ([RMI.MpiAct.iRecv cfg.sizeof_int dest RMI.MpiTag.hugeAckTag] ++ ctl ++
          [RMI.MpiAct.waitSendDone, RMI.MpiAct.waitAckDone,
           RMI.MpiAct.iSend body nbyte dest RMI.MpiTag.hugeDatTag])
    else Except.error "RMI: control record exceeds eager buffer"
  else if nbyte < cfg.header_len then
    Except.error "RMI::isend --- your buffer is too small to hold the header"
  else
    Except.ok [RMI.MpiAct.iSend body nbyte dest RMI.MpiTag.rmiTag]
termination_by nbyte
decreasing_by omega

/-- The receiver-side state of the huge-message rendezvous: the FIFO of
pending `(src, nbyte)` requests and whether the spare receive slot
`recv_buf[nrecv_]` is free (null). -/
structure HugeState where
  hugeq : List (Nat × Nat)
  spareFree : Bool
deriving DecidableEq, Repr

/-- `RMI::post_pending_huge_msg` (worldrmi.cc:184-200): if no huge receive
is already pending and a request is queued, allocate an aligned buffer of
`nbyte` bytes (failure is fatal; `allocOk` is the allocator's verdict), post
the receive on the HUGE_DAT tag and send the `int nada = 0` acknowledgement
on the HUGE_ACK tag. -/
def post_pending_huge_msg (cfg : RmiConfig) (allocOk : Bool) (st : HugeState) :
    Except String (HugeState × List MpiAct) :=
  if st.spareFree = false then Except.ok (st, [])
  else
    match st.hugeq with
    | [] => Except.ok (st, [])
    | (src, nbyte) :: rest =>
        if allocOk = false then
          Except.error "RMI: failed allocating huge message"
        else
          Except.ok
            (⟨rest, false⟩,
             [RMI.MpiAct.iRecv nbyte src RMI.MpiTag.hugeDatTag,
              RMI.MpiAct.blockSend SendBody.ackZero cfg.sizeof_int src RMI.MpiTag.hugeAckTag])

/-- `RMI::huge_msg_handler` (worldrmi.cc:326-334): enqueue the announced
`(src, nbyte)` and try to post it. -/
def huge_msg_handler (cfg : RmiConfig) (allocOk : Bool) (src nbyte : Nat)
    (st : HugeState) : Except String (HugeState × List MpiAct) :=
  post_pending_huge_msg cfg allocOk { st with hugeq := st.hugeq ++ [(src, nbyte)] }

end RMI

/-! Concrete instantiations of the black-box collaborators, used to evaluate
the model on explicit inputs. -/

/-- A concrete `ApplyEnv`: the displacement itself as neighbor key, every
destination valid, unit operator norm, identity kernel, unit result norm. -/
def demoApplyEnv : ApplyEnv :=
  ⟨fun _ d => d, fun _ => true, fun _ _ => 1, fun _ _ c _ => c, fun _ => 1⟩

/-- A concrete two-scale filter for evaluation: swap the two sub-blocks. -/
def demoFil : MTensor → MTensor := fun t => ⟨t.wav, t.s0⟩

/-- A concrete child-block gather for evaluation: concatenate the scaling
entries into the two sub-blocks. -/
def demoAsm : List MTensor → MTensor :=
  fun v => ⟨v.flatMap (fun t => t.s0), v.flatMap (fun t => t.s0)⟩

/-- A concrete three-level tree for evaluation. -/
def demoTree : CTree :=
  CTree.node (CForest.fcons (CTree.node (CForest.fcons (CTree.leaf ⟨[1], []⟩)
    CForest.fnil)) (CForest.fcons (CTree.leaf ⟨[2], []⟩) CForest.fnil))

/-! ## Theorems -/

/-- Claim C3: `truncate_tol(tol, key)` returns `tol` for truncate_mode 0,
`tol * min(1, 2^{-n} L)` for mode 1, `tol * min(1, 4^{-n} L²)` for mode 2,
and raises a fatal exception for every other mode. -/
theorem truncate_tol_policies (mode : ℤ) (L tol : ℚ) (lev : Nat) :
    (mode = 0 → truncate_tol mode L tol lev = Except.ok tol) ∧
    (mode = 1 → truncate_tol mode L tol lev =
      Except.ok (tol * min 1 (((2 : ℚ) ^ lev)⁻¹ * L))) ∧
    (mode = 2 → truncate_tol mode L tol lev =
      Except.ok (tol * min 1 (((4 : ℚ) ^ lev)⁻¹ * L ^ 2))) ∧
    (mode ≠ 0 → mode ≠ 1 → mode ≠ 2 →
      ∃ msg, truncate_tol mode L tol lev = Except.error msg) := by
  have h2 : (1/2 : ℚ) ^ lev = ((2 : ℚ) ^ lev)⁻¹ := by
    rw [one_div, inv_pow]
  have h4 : (1/4 : ℚ) ^ lev = ((4 : ℚ) ^ lev)⁻¹ := by
    rw [one_div, inv_pow]
  refine ⟨fun h => ?_, fun h => ?_, fun h => ?_, fun h0 h1 hh2 => ?_⟩
  · simp [truncate_tol, h]
  · simp [truncate_tol, h, h2]
  · simp only [truncate_tol, h]
    norm_num [h4, pow_two, mul_assoc]
  · exact ⟨"truncate_mode invalid", by simp [truncate_tol, h0, h1, hh2]⟩

/-- Claim C3 witness at truncate_mode 1. -/
theorem truncate_tol_policies_witness :
    truncate_tol 1 2 1 1 = Except.ok (1 * min 1 (((2 : ℚ) ^ 1)⁻¹ * 2)) :=
  (truncate_tol_policies 1 2 1 1).2.1 rfl

/-- Claim C10: `truncate(tol, fence)` with `tol ≤ 0` substitutes the stored
screening threshold `thresh`, behaving exactly like `truncate(thresh, fence)`,
and leaves the stored `thresh` unchanged. -/
theorem truncate_nonpositive_tol (st : ImplState) (tol : ℚ) (fence : Bool)
    (h : tol ≤ 0) :
    truncate st tol fence = truncate st st.thresh fence ∧
    (truncate st tol fence).1.thresh = st.thresh := by
  constructor
  · simp [truncate, h]
  · simp [truncate]

/-- Claim C10 witness. -/
theorem truncate_nonpositive_tol_witness :
    truncate ⟨5, 0⟩ (-1) true = truncate ⟨5, 0⟩ (5 : ℚ) true ∧
    (truncate ⟨5, 0⟩ (-1) true).1.thresh = (5 : ℚ) :=
  truncate_nonpositive_tol ⟨5, 0⟩ (-1) true (by norm_num)

/-- Combining elementwise with a zero list of matching length on the right is
scaling by `alpha`. -/
theorem zipWith_gaxpy_zero_right (alpha beta : ℚ) :
    ∀ xs : List ℚ,
      List.zipWith (fun a b => alpha * a + beta * b) xs
        (List.replicate xs.length 0) = xs.map (fun a => alpha * a)
  | [] => rfl
  | x :: xs => by
      simp [List.replicate, zipWith_gaxpy_zero_right alpha beta xs]

/-- Combining elementwise with a zero list of matching length on the left is
scaling by `beta`. -/
theorem zipWith_gaxpy_zero_left (alpha beta : ℚ) :
    ∀ ys : List ℚ,
      List.zipWith (fun a b => alpha * a + beta * b)
        (List.replicate ys.length 0) ys = ys.map (fun b => beta * b)
  | [] => rfl
  | y :: ys => by
      simp [List.replicate, zipWith_gaxpy_zero_left alpha beta ys]

/-- `gaxpy` against a same-shaped zero tensor on the right is `scale`. -/
theorem gaxpy_zeroLike_right (alpha beta : ℚ) (t : MTensor) :
    MTensor.gaxpy alpha t t.zeroLike beta = MTensor.scale alpha t := by
  simp [MTensor.gaxpy, MTensor.zeroLike, MTensor.scale,
    zipWith_gaxpy_zero_right alpha beta]

/-- `gaxpy` against a same-shaped zero tensor on the left is `scale`. -/
theorem gaxpy_zeroLike_left (alpha beta : ℚ) (t : MTensor) :
    MTensor.gaxpy alpha t.zeroLike t beta = MTensor.scale beta t := by
  simp [MTensor.gaxpy, MTensor.zeroLike, MTensor.scale,
    zipWith_gaxpy_zero_left alpha beta]

/-- Claim C6: `FunctionNode::gaxpy_inplace(alpha, other, beta)` sets
`has_children` to the disjunction of the two flags and merges the
coefficients elementwise as `this <- alpha*this + beta*other`, a missing
coefficient tensor standing for zero — so both-present combines elementwise,
this-only scales by alpha, other-only installs `beta*other`, and
neither-present stays coefficient-free; nothing else changes. -/
theorem gaxpy_inplace_rule (alpha beta : ℚ) (a b : FunctionNode) :
    a.gaxpy_inplace alpha b beta =
      { coeffs := FunctionNode.gaxpyMergeRule alpha a.coeffs b.coeffs beta,
        hasChildrenF := a.has_children || b.has_children,
        normTreeF := a.normTreeF } := by
  rcases a with ⟨ca, ha, na⟩
  rcases b with ⟨cb, hb, nb⟩
  have hor : (if hb then true else ha) = (ha || hb) := by
    cases ha <;> cases hb <;> rfl
  rcases ca with _ | ca <;> rcases cb with _ | cb <;>
    simp [FunctionNode.gaxpy_inplace, FunctionNode.gaxpyMergeRule,
      FunctionNode.has_children, FunctionNode.has_coeff, hor,
      gaxpy_zeroLike_right, gaxpy_zeroLike_left]

/-- Claim C7 counterexample: the claim says every node with coefficients is
rewritten by `standard()`, but the code skips the root (`key.level() > 0`):
a root carrying coefficients with a non-zero scaling sub-block is left
untouched. -/
theorem standard_root_counterexample :
    standard [(⟨0, [0]⟩, ⟨some ⟨[1], [2]⟩, true, 0⟩)] =
      [(⟨0, [0]⟩, ⟨some ⟨[1], [2]⟩, true, 0⟩)] ∧
    ¬ MTensor.s0IsZero ⟨[1], [2]⟩ := by
  refine ⟨rfl, fun h => ?_⟩
  have h1 := h 1 (by simp)
  norm_num at h1

/-- Claim C7 (amended): `standard()` maps `standardNode` over every local
node; a non-root node with coefficients has its scaling sub-block zeroed if
it has children and its whole coefficient tensor deleted if it is a leaf,
with `has_children` and `norm_tree` untouched; root nodes and nodes without
coefficients are left unchanged. -/
theorem standard_nonroot_rule (tree : List (KeyM × FunctionNode))
    (key : KeyM) (nd : FunctionNode) (c : MTensor) :
    (standard tree = tree.map (fun kn => (kn.1, standardNode kn.1 kn.2))) ∧
    (0 < key.n → nd.coeffs = some c → nd.has_children = true →
      standardNode key nd =
        { nd with coeffs := some ⟨List.replicate c.s0.length 0, c.wav⟩ }) ∧
    (0 < key.n → nd.coeffs = some c → nd.has_children = false →
      standardNode key nd = { nd with coeffs := none }) ∧
    (key.n = 0 ∨ nd.coeffs = none → standardNode key nd = nd) := by
  refine ⟨rfl, fun hn hc hch => ?_, fun hn hc hch => ?_, fun h => ?_⟩
  · simp [standardNode, hc, hn, hch, MTensor.zeroS0]
  · simp [standardNode, hc, hn, hch, FunctionNode.clear_coeff]
  · rcases h with h | h
    · rcases hc : nd.coeffs with _ | c0 <;> simp [standardNode, hc, h]
    · simp [standardNode, h]

/-- Claim C7 witness: a non-root interior node and a non-root leaf. -/
theorem standard_nonroot_rule_witness :
    standardNode ⟨1, [0]⟩ ⟨some ⟨[1], [2]⟩, true, 7⟩ =
      ⟨some ⟨[0], [2]⟩, true, 7⟩ ∧
    standardNode ⟨1, [1]⟩ ⟨some ⟨[1], [2]⟩, false, 7⟩ = ⟨none, false, 7⟩ := by
  constructor
  · exact (standard_nonroot_rule [] ⟨1, [0]⟩ ⟨some ⟨[1], [2]⟩, true, 7⟩
      ⟨[1], [2]⟩).2.1 (by norm_num) rfl rfl
  · exact (standard_nonroot_rule [] ⟨1, [1]⟩ ⟨some ⟨[1], [2]⟩, false, 7⟩
      ⟨[1], [2]⟩).2.2.1 (by norm_num) rfl rfl

/-- Claim C9: overflowing the out-of-order queue (attempting to park an
ordered message when `maxq_` are already parked) is a fatal exception in the
server loop, and an allocation failure for a pending huge message is a fatal
exception in `post_pending_huge_msg`; both surface as terminal errors. -/
theorem rmi_fatal_errors (maxq : Nat) (s : RMI.RecvState) (m : RMI.QMsg)
    (cfg : RMI.RmiConfig) (st : RMI.HugeState) (src nbyte : Nat)
    (rest : List (Nat × Nat)) :
    (m.ordered = true → m.count ≠ s.recv_counters m.src → maxq ≤ s.q.length →
      RMI.processMessage maxq s m =
        Except.error "RMI:server: overflowed out-of-order message q") ∧
    (st.spareFree = true → st.hugeq = (src, nbyte) :: rest →
      RMI.post_pending_huge_msg cfg false st =
        Except.error "RMI: failed allocating huge message") := by
  constructor
  · intro ho hc hq
    simp [RMI.processMessage, ho, hc, hq]
  · intro hs hl
    simp [RMI.post_pending_huge_msg, hs, hl]

/-- Claim C9 witness: a full queue and a failing allocation. -/
theorem rmi_fatal_errors_witness :
    RMI.processMessage 1 ⟨fun _ => 0, [⟨0, true, 5, 0⟩], []⟩ ⟨0, true, 7, 1⟩ =
      Except.error "RMI:server: overflowed out-of-order message q" ∧
    RMI.post_pending_huge_msg ⟨1024, 16, 8, 4, 0⟩ false ⟨[(2, 5000)], true⟩ =
      Except.error "RMI: failed allocating huge message" := by
  constructor
  · exact (rmi_fatal_errors 1 ⟨fun _ => 0, [⟨0, true, 5, 0⟩], []⟩ ⟨0, true, 7, 1⟩
      ⟨1024, 16, 8, 4, 0⟩ ⟨[(2, 5000)], true⟩ 2 5000 []).1 rfl (by decide) (by decide)
  · exact (rmi_fatal_errors 1 ⟨fun _ => 0, [], []⟩ ⟨0, true, 7, 1⟩
      ⟨1024, 16, 8, 4, 0⟩ ⟨[(2, 5000)], true⟩ 2 5000 []).2 rfl rfl

/-- Claim C8 counterexample: two points where the claim as stated fails on
the code.  A payload of 8 bytes is at most `MAX_MSG_LEN` yet is not sent
eagerly — `private_isend` raises because the buffer cannot hold the header —
and the rendezvous acknowledgement is not a zero-byte message: the receiver
sends `sizeof(int) = 4` bytes (the integer zero) on the HUGE_ACK tag. -/
theorem isend_claim_counterexample :
    RMI.private_isend ⟨1024, 16, 8, 4, 0⟩ RMI.SendBody.user 8 1 =
      Except.error "RMI::isend --- your buffer is too small to hold the header" ∧
    RMI.post_pending_huge_msg ⟨1024, 16, 8, 4, 0⟩ true ⟨[(2, 5000)], true⟩ =
      Except.ok (⟨[], false⟩,
        [RMI.MpiAct.iRecv 5000 2 RMI.MpiTag.hugeDatTag,
         RMI.MpiAct.blockSend RMI.SendBody.ackZero 4 2 RMI.MpiTag.hugeAckTag]) ∧
    (4 : Nat) ≠ 0 := by
  refine ⟨?_, rfl, by decide⟩
  rw [RMI.private_isend]
  norm_num

/-- Claim C8 (amended): a payload holding at least the header and at most
`MAX_MSG_LEN` goes out eagerly in a single non-blocking send on the RMI tag
(a smaller one is fatal); a payload strictly larger than `MAX_MSG_LEN`
follows the rendezvous: post the ACK receive, eagerly send the unordered
`{rank, nbyte}` control record to the destination's huge-message handler,
block until the control send and then the ACK complete, then send the real
payload on the HUGE_DAT tag.  The destination enqueues `(src, nbyte)` and,
when the spare receive slot is free, allocates an aligned buffer of `nbyte`
bytes, posts the receive on the HUGE_DAT tag and sends a `sizeof(int)`-byte
ACK containing zero on the HUGE_ACK tag. -/
theorem isend_protocol (cfg : RMI.RmiConfig) (body : RMI.SendBody)
    (nbyte dest : Nat)
    (hctl : cfg.header_len + 2 * cfg.sizeof_size_t ≤ cfg.max_msg_len) :
    (cfg.header_len ≤ nbyte → nbyte ≤ cfg.max_msg_len →
      RMI.private_isend cfg body nbyte dest =
        Except.ok [RMI.MpiAct.iSend body nbyte dest RMI.MpiTag.rmiTag]) ∧
    (nbyte < cfg.header_len →
      RMI.private_isend cfg body nbyte dest =
        Except.error "RMI::isend --- your buffer is too small to hold the header") ∧
    (cfg.max_msg_len < nbyte →
      RMI.private_isend cfg body nbyte dest =
        Except.ok
          [RMI.MpiAct.iRecv cfg.sizeof_int dest RMI.MpiTag.hugeAckTag,
           RMI.MpiAct.iSend (RMI.SendBody.hugeCtl cfg.rank nbyte)
             (cfg.header_len + 2 * cfg.sizeof_size_t) dest RMI.MpiTag.rmiTag,
           RMI.MpiAct.waitSendDone, RMI.MpiAct.waitAckDone,
           RMI.MpiAct.iSend body nbyte dest RMI.MpiTag.hugeDatTag]) ∧
    (∀ (st : RMI.HugeState) (src nb : Nat) (rest : List (Nat × Nat)),
      st.spareFree = true → st.hugeq = (src, nb) :: rest →
      RMI.post_pending_huge_msg cfg true st =
        Except.ok (⟨rest, false⟩,
          [RMI.MpiAct.iRecv nb src RMI.MpiTag.hugeDatTag,
           RMI.MpiAct.blockSend RMI.SendBody.ackZero cfg.sizeof_int src
             RMI.MpiTag.hugeAckTag])) ∧
    (∀ src nb : Nat,
      RMI.huge_msg_handler cfg true src nb ⟨[], true⟩ =
        Except.ok (⟨[], false⟩,
          [RMI.MpiAct.iRecv nb src RMI.MpiTag.hugeDatTag,
           RMI.MpiAct.blockSend RMI.SendBody.ackZero cfg.sizeof_int src
             RMI.MpiTag.hugeAckTag])) := by
  have eager : ∀ nb : Nat, cfg.header_len ≤ nb → nb ≤ cfg.max_msg_len →
      ∀ bd : RMI.SendBody, RMI.private_isend cfg bd nb dest =
        Except.ok [RMI.MpiAct.iSend bd nb dest RMI.MpiTag.rmiTag] := by
    intro nb hge hle bd
    rw [RMI.private_isend]
    rw [dif_neg (by omega)]
    rw [if_neg (by omega)]
  refine ⟨fun hge hle => eager nbyte hge hle body, fun hlt => ?_,
    fun hhuge => ?_, fun st src nb rest hs hl => ?_, fun src nb => ?_⟩
  · rw [RMI.private_isend]
    rw [dif_neg (by omega)]
    rw [if_pos hlt]
  · rw [RMI.private_isend]
    rw [dif_pos hhuge, dif_pos hctl]
    rw [eager (cfg.header_len + 2 * cfg.sizeof_size_t) (by omega) hctl
      (RMI.SendBody.hugeCtl cfg.rank nbyte)]
    rfl
  · simp [RMI.post_pending_huge_msg, hs, hl]
  · simp [RMI.huge_msg_handler, RMI.post_pending_huge_msg]

/-- Claim C8 witness: a concrete configuration exercising the eager path,
the fatal small-buffer path, the rendezvous path and the receiver side. -/
theorem isend_protocol_witness :
    RMI.private_isend ⟨1024, 16, 8, 4, 0⟩ RMI.SendBody.user 100 1 =
      Except.ok [RMI.MpiAct.iSend RMI.SendBody.user 100 1 RMI.MpiTag.rmiTag] ∧
    RMI.private_isend ⟨1024, 16, 8, 4, 0⟩ RMI.SendBody.user 2000 1 =
      Except.ok
        [RMI.MpiAct.iRecv 4 1 RMI.MpiTag.hugeAckTag,
         RMI.MpiAct.iSend (RMI.SendBody.hugeCtl 0 2000) 32 1 RMI.MpiTag.rmiTag,
         RMI.MpiAct.waitSendDone, RMI.MpiAct.waitAckDone,
         RMI.MpiAct.iSend RMI.SendBody.user 2000 1 RMI.MpiTag.hugeDatTag] := by
  constructor
  · exact (isend_protocol ⟨1024, 16, 8, 4, 0⟩ RMI.SendBody.user 100 1
      (by norm_num)).1 (by norm_num) (by norm_num)
  · exact (isend_protocol ⟨1024, 16, 8, 4, 0⟩ RMI.SendBody.user 2000 1
      (by norm_num)).2.2.1 (by norm_num)

/-- Closed form of the `do_apply` displacement loop: walk the list up to the
first breaking displacement and schedule a kernel task for exactly the
displacements with a valid destination passing the norm screen. -/
theorem do_apply_go_closed_form (env : ApplyEnv) (bc : List ℤ) (key : KeyM)
    (cnorm tol : ℚ) (lmax : ℤ) :
    ∀ disp : List KeyM,
      do_apply_go env bc key cnorm tol lmax disp =
        ((disp.takeWhile
            (fun e => !apply_breaks env bc key cnorm tol lmax e)).filter
          (fun e => apply_emits env key cnorm tol e)).map
          (fun e => ⟨key, e, env.neighbor key e, tol, 3, cnorm⟩)
  | [] => rfl
  | d :: rest => by
      have ih := do_apply_go_closed_form env bc key cnorm tol lmax rest
      by_cases hcap : periodic_cap bc d.l lmax = false
      · simp [do_apply_go, hcap, apply_breaks]
      · rw [Bool.not_eq_false] at hcap
        by_cases hval : env.valid (env.neighbor key d) = true
        · by_cases hscr : cnorm * env.opnorm key.n d > tol / 3
          · simp [do_apply_go, hcap, hval, hscr, apply_breaks, apply_emits, ih]
          · by_cases hdist : (1 : ℤ) ≤ d.distsq
            · simp [do_apply_go, hcap, hval, hscr, hdist, apply_breaks]
            · simp [do_apply_go, hcap, hval, hscr, hdist, apply_breaks,
                apply_emits, ih]
        · simp [do_apply_go, hcap, hval, apply_breaks, apply_emits, ih]

/-- A breaking displacement reached by the loop abandons it: the tasks are
exactly those of the preceding prefix. -/
theorem do_apply_go_break_split (env : ApplyEnv) (bc : List ℤ) (key : KeyM)
    (cnorm tol : ℚ) (lmax : ℤ) (d : KeyM) (post : List KeyM) :
    ∀ pre : List KeyM,
      (∀ e ∈ pre, apply_breaks env bc key cnorm tol lmax e = false) →
      apply_breaks env bc key cnorm tol lmax d = true →
      do_apply_go env bc key cnorm tol lmax (pre ++ d :: post) =
        do_apply_go env bc key cnorm tol lmax pre
  | [], _, hd => by
      simp only [apply_breaks, Bool.or_eq_true, Bool.and_eq_true,
        decide_eq_true_eq, Bool.not_eq_eq_eq_not, Bool.not_true,
        decide_eq_false_iff_not] at hd
      rcases hd with hd | ⟨⟨hval, hscr⟩, hdist⟩
      · simp [do_apply_go, hd]
      · by_cases hcap : periodic_cap bc d.l lmax = false
        · simp [do_apply_go, hcap]
        · rw [Bool.not_eq_false] at hcap
          simp [do_apply_go, hcap, hval, hscr, hdist]
  | e :: pre, hpre, hd => by
      have he := hpre e (List.mem_cons_self e pre)
      have ih := do_apply_go_break_split env bc key cnorm tol lmax d post pre
        (fun x hx => hpre x (List.mem_cons_of_mem e hx)) hd
      have hcap : periodic_cap bc e.l lmax = true := by
        by_contra hc
        rw [Bool.not_eq_true] at hc
        rw [apply_breaks] at he
        simp [hc] at he
      by_cases hval : env.valid (env.neighbor key e) = true
      · by_cases hscr : cnorm * env.opnorm key.n e > tol / 3
        · simp [do_apply_go, hcap, hval, hscr, ih]
        · have hdist : ¬ (1 : ℤ) ≤ e.distsq := by
            intro hge
            rw [apply_breaks] at he
            simp [hval, hscr, hge] at he
          simp [do_apply_go, hcap, hval, hscr, hdist, ih]
      · simp [do_apply_go, hcap, hval, ih]

/-- Claim C4: in `do_apply` with `fac = 3` and `tol = truncate_tol(thresh,
key)`, the loop schedules a kernel task exactly for the displacements it
reaches whose destination is valid and whose `cnorm*opnorm` exceeds
`tol/fac`; the kernel accumulates its result into the destination node iff
the result norm exceeds `0.3*tol/fac`, `accumulate` creating the node's
coefficients when absent and registering a fresh childless non-root node
with its parent; and a reached valid displacement with `distsq >= 1` failing
the screen abandons the remaining displacements. -/
theorem do_apply_screening (env : ApplyEnv) (bc : List ℤ) (key : KeyM)
    (cnorm tol : ℚ) (disp pre post : List KeyM) (d : KeyM) (c : MTensor)
    (args : do_op_args) (nd : FunctionNode) (t : MTensor) (k2 : KeyM) :
    (do_apply env bc key cnorm tol disp =
      ((disp.takeWhile
          (fun e => !apply_breaks env bc key cnorm tol ((2 : ℤ) ^ (key.n - 1)) e)).filter
        (fun e => apply_emits env key cnorm tol e)).map
        (fun e => ⟨key, e, env.neighbor key e, tol, 3, cnorm⟩)) ∧
    ((do_apply_kernel env c args).isSome ↔
      env.normf (env.opApplyResult args.key args.d c
        (args.tol / args.fac / args.cnorm)) > 3/10 * args.tol / args.fac) ∧
    ((∀ e ∈ pre,
        apply_breaks env bc key cnorm tol ((2 : ℤ) ^ (key.n - 1)) e = false) →
      env.valid (env.neighbor key d) = true →
      ¬ cnorm * env.opnorm key.n d > tol / 3 →
      (1 : ℤ) ≤ d.distsq →
      do_apply env bc key cnorm tol (pre ++ d :: post) =
        do_apply env bc key cnorm tol pre) ∧
    (nd.coeffs = none →
      (FunctionNode.accumulate nd t k2).1 = { nd with coeffs := some t }) ∧
    (∀ c0, nd.coeffs = some c0 →
      FunctionNode.accumulate nd t k2 =
        ({ nd with coeffs := some (c0.add t) }, false)) ∧
    ((FunctionNode.accumulate nd t k2).2 = true ↔
      nd.coeffs = none ∧ nd.hasChildrenF = false ∧ 0 < k2.n) := by
  refine ⟨do_apply_go_closed_form env bc key cnorm tol _ disp, ?_,
    fun hpre hval hscr hdist => ?_, fun hc => ?_, fun c0 hc => ?_, ?_⟩
  · unfold do_apply_kernel
    by_cases h : env.normf (env.opApplyResult args.key args.d c
        (args.tol / args.fac / args.cnorm)) > 3/10 * args.tol / args.fac
    · simp [h]
    · simp [h]
  · refine do_apply_go_break_split env bc key cnorm tol _ d post pre hpre ?_
    simp [apply_breaks, hval, hscr, hdist]
  · simp [FunctionNode.accumulate, hc]
  · simp [FunctionNode.accumulate, hc]
  · rcases hcn : nd.coeffs with _ | c0 <;>
      simp [FunctionNode.accumulate, hcn]

/-- Claim C4 witness: one screened-in and one screened-out displacement. -/
theorem do_apply_screening_witness :
    do_apply demoApplyEnv [0] ⟨1, [0]⟩ 1 1 [⟨1, [1]⟩] =
      [⟨⟨1, [0]⟩, ⟨1, [1]⟩, ⟨1, [1]⟩, 1, 3, 1⟩] ∧
    do_apply demoApplyEnv [0] ⟨1, [0]⟩ 0 1 ([] ++ ⟨1, [1]⟩ :: [⟨1, [2]⟩]) =
      do_apply demoApplyEnv [0] ⟨1, [0]⟩ 0 1 [] := by
  constructor
  · have h := (do_apply_screening demoApplyEnv [0] ⟨1, [0]⟩ 1 1 [⟨1, [1]⟩] [] []
      ⟨1, [1]⟩ ⟨[], []⟩ ⟨⟨1, [0]⟩, ⟨1, [1]⟩, ⟨1, [1]⟩, 1, 3, 1⟩
      ⟨none, false, 0⟩ ⟨[], []⟩ ⟨1, [1]⟩).1
    rw [h]
    norm_num [List.takeWhile, List.filter, apply_breaks, apply_emits,
      demoApplyEnv, periodic_cap, KeyM.distsq]
  · exact (do_apply_screening demoApplyEnv [0] ⟨1, [0]⟩ 0 1 [] [] [⟨1, [2]⟩]
      ⟨1, [1]⟩ ⟨[], []⟩ ⟨⟨1, [0]⟩, ⟨1, [1]⟩, ⟨1, [1]⟩, 1, 3, 1⟩
      ⟨none, false, 0⟩ ⟨[], []⟩ ⟨1, [1]⟩).2.2.1
      (by intro e he; simp at he) rfl (by norm_num [demoApplyEnv]) (by decide)

/-- Claim C5 counterexample: with both axes periodic at level 2 (so the cap
is `2^{2-1} = 2`), the displacement `(0, 3)` exceeds the cap on periodic
axis 1, yet `do_apply` schedules a kernel task for it — the loop tests only
the first periodic axis. -/
theorem do_apply_periodic_counterexample :
    do_apply demoApplyEnv [1, 1] ⟨2, [0, 0]⟩ 1 1 [⟨2, [0, 3]⟩] =
      [⟨⟨2, [0, 0]⟩, ⟨2, [0, 3]⟩, ⟨2, [0, 3]⟩, 1, 3, 1⟩] ∧
    (2 : ℤ) ^ (2 - 1 : Nat) < 3 := by
  constructor
  · norm_num [do_apply, do_apply_go, demoApplyEnv, periodic_cap]
  · norm_num

/-- Claim C5 (amended): the periodic test of `do_apply` examines only the
first axis whose boundary condition is periodic, and there enforces the
asymmetric cap `-2^{n-1} < l_i ≤ 2^{n-1}`; a displacement failing that test
contributes no kernel task and abandons all remaining displacements, and a
displacement passing it is not excluded by this test. -/
theorem do_apply_periodic_first_axis (env : ApplyEnv) (bc : List ℤ)
    (key : KeyM) (cnorm tol : ℚ) (d : KeyM) (rest pre post : List KeyM) :
    (∀ (bcl dl : List ℤ) (lmax : ℤ),
      periodic_cap bcl dl lmax =
        (match (bcl.zip dl).find? (fun bl => bl.1 == 1) with
         | none => true
         | some bl => decide (-lmax < bl.2 ∧ bl.2 ≤ lmax))) ∧
    ((∀ e ∈ pre,
        apply_breaks env bc key cnorm tol ((2 : ℤ) ^ (key.n - 1)) e = false) →
      periodic_cap bc d.l ((2 : ℤ) ^ (key.n - 1)) = false →
      do_apply env bc key cnorm tol (pre ++ d :: post) =
        do_apply env bc key cnorm tol pre) ∧
    (periodic_cap bc d.l ((2 : ℤ) ^ (key.n - 1)) = true →
      env.valid (env.neighbor key d) = true →
      cnorm * env.opnorm key.n d > tol / 3 →
      do_apply env bc key cnorm tol (d :: rest) =
        ⟨key, d, env.neighbor key d, tol, 3, cnorm⟩ ::
          do_apply env bc key cnorm tol rest) := by
  refine ⟨?_, fun hpre hcap => ?_, fun hcap hval hscr => ?_⟩
  · intro bcl
    induction bcl with
    | nil => intro dl lmax; simp [periodic_cap]
    | cons b brest ih =>
        intro dl lmax
        cases dl with
        | nil => simp [periodic_cap]
        | cons li lrest =>
            by_cases hb : b = 1
            · have hb1 : (b == 1) = true := by simp [hb]
              simp only [List.zip_cons_cons, List.find?_cons, hb1]
              simp only [periodic_cap, hb, if_pos]
              by_cases h1 : li > lmax
              · have hn : ¬ (-lmax < li ∧ li ≤ lmax) := by omega
                simp [h1, hn]
              · by_cases h2 : li ≤ -lmax
                · have hn : ¬ (-lmax < li ∧ li ≤ lmax) := by omega
                  simp [h1, h2, hn]
                · have hy : -lmax < li ∧ li ≤ lmax := by omega
                  simp [h1, h2, hy]
            · have hb1 : (b == 1) = false := by simp [hb]
              simp only [List.zip_cons_cons, List.find?_cons, hb1]
              simp only [periodic_cap, hb, if_neg, if_false]
              exact ih lrest lmax
  · exact do_apply_go_break_split env bc key cnorm tol _ d post pre hpre
      (by simp [apply_breaks, hcap])
  · simp [do_apply, do_apply_go, hcap, hval, hscr]

/-- Claim C5 witness: a first-periodic-axis violation abandoning the loop and
a first-periodic-axis pass scheduling a task. -/
theorem do_apply_periodic_first_axis_witness :
    do_apply demoApplyEnv [1] ⟨2, [0]⟩ 1 1 ([] ++ ⟨2, [5]⟩ :: [⟨2, [1]⟩]) =
      do_apply demoApplyEnv [1] ⟨2, [0]⟩ 1 1 [] ∧
    do_apply demoApplyEnv [1] ⟨2, [0]⟩ 1 1 [⟨2, [2]⟩] =
      [⟨⟨2, [0]⟩, ⟨2, [2]⟩, ⟨2, [2]⟩, 1, 3, 1⟩] := by
  constructor
  · exact (do_apply_periodic_first_axis demoApplyEnv [1] ⟨2, [0]⟩ 1 1 ⟨2, [5]⟩
      [] [] [⟨2, [1]⟩]).2.1 (by intro e he; simp at he)
      (by norm_num [periodic_cap])
  · have h := (do_apply_periodic_first_axis demoApplyEnv [1] ⟨2, [0]⟩ 1 1
      ⟨2, [2]⟩ [] [] []).2.2 (by norm_num [periodic_cap])
      (by norm_num [demoApplyEnv]) (by norm_num [demoApplyEnv])
    rw [h]
    rfl

mutual
/-- Every node left behind by a standard compress (`nonstandard = false`,
`keepleaves = false`) that is not the root and still carries coefficients
has an exactly zero scaling sub-block. -/
theorem compress_spawn_s0_zero (fil : MTensor → MTensor)
    (asm : List MTensor → MTensor) :
    ∀ (t : CTree) (lev0 : Nat),
      ∀ nd ∈ (compress_spawn fil asm false false t lev0).2,
        0 < nd.level → ∀ c, nd.coeff = some c → c.s0IsZero
  | .leaf s, lev0 => by
      intro nd hnd hlev c hc
      simp only [compress_spawn, Bool.false_eq_true, if_false,
        List.mem_singleton] at hnd
      subst hnd
      simp at hc
  | .node cs, lev0 => by
      intro nd hnd hlev c hc
      simp only [compress_spawn, List.mem_cons] at hnd
      rcases hnd with hnd | hnd
      · subst hnd
        simp only [compress_op] at hc hlev
        have hpos : 0 < lev0 := hlev
        simp only [hpos, and_true, true_and, eq_self_iff_true, if_pos,
          Option.some.injEq] at hc
        subst hc
        intro a ha
        simp [MTensor.zeroS0] at ha
        exact ha.2
      · rw [List.mem_flatten] at hnd
        obtain ⟨l, hl, hndl⟩ := hnd
        rw [List.mem_map] at hl
        obtain ⟨r, hr, rfl⟩ := hl
        exact compress_spawnF_s0_zero fil asm cs (lev0 + 1) r hr nd hndl hlev c hc
/-- Forest version of `compress_spawn_s0_zero`. -/
theorem compress_spawnF_s0_zero (fil : MTensor → MTensor)
    (asm : List MTensor → MTensor) :
    ∀ (f : CForest) (lev0 : Nat),
      ∀ r ∈ compress_spawnF fil asm false false f lev0,
        ∀ nd ∈ r.2, 0 < nd.level → ∀ c, nd.coeff = some c → c.s0IsZero
  | .fnil, lev0 => by
      intro r hr
      simp [compress_spawnF] at hr
  | .fcons t rest, lev0 => by
      intro r hr nd hnd hlev c hc
      simp only [compress_spawnF, List.mem_cons] at hr
      rcases hr with hr | hr
      · subst hr
        exact compress_spawn_s0_zero fil asm t lev0 nd hnd hlev c hc
      · exact compress_spawnF_s0_zero fil asm rest lev0 r hr nd hnd hlev c hc
end

/-- Claim C2: `compress_op` on a non-root key with `nonstandard = false`
gathers the child scaling blocks, filters them, stores the filtered block
with `has_children = true`, returns the pre-zero scaling sub-block, and
zeroes the stored `s0` sub-block — the stored block keeps its `s0` exactly
when the key is the root or `nonstandard` is requested; consequently after a
standard compress every non-root node still carrying coefficients has an
exactly zero `s0` sub-block. -/
theorem compress_op_zeroes_s0 (fil : MTensor → MTensor)
    (asm : List MTensor → MTensor) (lev : Nat) (v : List MTensor) (ns : Bool)
    (t : CTree) (lev0 : Nat) :
    ((compress_op fil asm lev v ns).1 = ⟨(fil (asm v)).s0, []⟩) ∧
    ((compress_op fil asm lev v ns).2.level = lev ∧
      (compress_op fil asm lev v ns).2.hasChildrenC = true) ∧
    ((compress_op fil asm lev v ns).2.coeff =
      some (if 0 < lev ∧ ns = false then (fil (asm v)).zeroS0
            else fil (asm v))) ∧
    (∀ nd ∈ (compress_spawn fil asm false false t lev0).2,
      0 < nd.level → ∀ c, nd.coeff = some c → c.s0IsZero) :=
  ⟨rfl, ⟨rfl, rfl⟩, rfl, compress_spawn_s0_zero fil asm t lev0⟩

/-- Claim C2 witness: on the concrete three-level tree the interior non-root
node produced by compression stores a zero scaling sub-block. -/
theorem compress_op_zeroes_s0_witness : MTensor.s0IsZero ⟨[0], [1]⟩ := by
  refine (compress_op_zeroes_s0 demoFil demoAsm 1 [] false demoTree 0).2.2.2
    ⟨1, some ⟨[0], [1]⟩, true⟩ ?_ (by norm_num) ⟨[0], [1]⟩ rfl
  decide

namespace RMI

theorem fromSrc_append (r : Nat) (xs ys : List QMsg) :
    fromSrc r (xs ++ ys) = fromSrc r xs ++ fromSrc r ys :=
  List.filter_append xs ys

theorem fromSrc_perm (r : Nat) {xs ys : List QMsg} (h : xs.Perm ys) :
    (fromSrc r xs).Perm (fromSrc r ys) :=
  h.filter _

theorem fromSrc_cons_pos (r : Nat) (m : QMsg) (xs : List QMsg)
    (h : (m.ordered && m.src == r) = true) :
    fromSrc r (m :: xs) = m :: fromSrc r xs := by
  simp [fromSrc, List.filter, h]

theorem fromSrc_cons_neg (r : Nat) (m : QMsg) (xs : List QMsg)
    (h : (m.ordered && m.src == r) = false) :
    fromSrc r (m :: xs) = fromSrc r xs := by
  simp [fromSrc, List.filter, h]

theorem mem_fromSrc (r : Nat) (m : QMsg) (xs : List QMsg)
    (h : m ∈ fromSrc r xs) : m ∈ xs ∧ m.ordered = true ∧ m.src = r := by
  rw [fromSrc, List.mem_filter] at h
  refine ⟨h.1, ?_, ?_⟩
  · exact (Bool.and_eq_true _ _ |>.mp h.2).1
  · simpa using (Bool.and_eq_true _ _ |>.mp h.2).2

theorem stampAll_length (r c : Nat) (ps : List Nat) :
    (stampAll r c ps).length = ps.length := by
  induction ps generalizing c with
  | nil => rfl
  | cons p ps ih => simp [stampAll, ih]

theorem stampAll_map_count (r : Nat) (ps : List Nat) :
    ∀ c, c + ps.length < 65536 →
      (stampAll r c ps).map QMsg.count = List.range' c ps.length := by
  induction ps with
  | nil => intro c _; rfl
  | cons p ps ih =>
      intro c hc
      simp only [List.length_cons] at hc
      have hb : bump16 c = c + 1 := by
        unfold bump16
        omega
      simp only [stampAll, List.map_cons, List.range', hb]
      rw [ih (c + 1) (by omega)]

theorem stampAll_map_payload (r c : Nat) (ps : List Nat) :
    (stampAll r c ps).map QMsg.payload = ps := by
  induction ps generalizing c with
  | nil => rfl
  | cons p ps ih => simp [stampAll, ih]

theorem stampAll_mem (r c : Nat) (ps : List Nat) (msg : QMsg)
    (h : msg ∈ stampAll r c ps) : msg.src = r ∧ msg.ordered = true := by
  induction ps generalizing c with
  | nil => simp [stampAll] at h
  | cons p ps ih =>
      simp only [stampAll, List.mem_cons] at h
      rcases h with h | h
      · subst h; exact ⟨rfl, rfl⟩
      · exact ih _ h

theorem stampAll_fromSrc (r c : Nat) (ps : List Nat) :
    fromSrc r (stampAll r c ps) = stampAll r c ps := by
  rw [fromSrc, List.filter_eq_self]
  intro msg hmsg
  obtain ⟨h1, h2⟩ := stampAll_mem r c ps msg hmsg
  simp [h1, h2]

theorem stampAll_count_get (r : Nat) (ps : List Nat) (hm : ps.length < 65536)
    (i : Nat) (h : i < (stampAll r 0 ps).length) :
    ((stampAll r 0 ps).get ⟨i, h⟩).count = i := by
  have hmap := stampAll_map_count r ps 0 (by omega)
  have h2 : i < ps.length := by
    rw [stampAll_length] at h
    exact h
  have := List.get_of_eq hmap ⟨i, by simp [List.length_map, stampAll_length, h2]⟩
  rw [List.get_map] at this
  rw [this]
  simp [List.get_range']

theorem stampAll_counts_nodup (r : Nat) (ps : List Nat)
    (hm : ps.length < 65536) :
    ((stampAll r 0 ps).map QMsg.count).Nodup := by
  rw [stampAll_map_count r ps 0 (by omega)]
  exact List.nodup_range' 0 ps.length 1 (by omega)

theorem stampAll_nodup (r : Nat) (ps : List Nat) (hm : ps.length < 65536) :
    (stampAll r 0 ps).Nodup :=
  (stampAll_counts_nodup r ps hm).of_map QMsg.count

theorem stampAll_mem_get (r : Nat) (ps : List Nat) (hm : ps.length < 65536)
    (msg : QMsg) (hmem : msg ∈ stampAll r 0 ps) :
    (stampAll r 0 ps).get? msg.count = some msg := by
  obtain ⟨i, hi⟩ := List.get_of_mem hmem
  obtain ⟨iv, ih⟩ := i
  have hc : msg.count = iv := by
    rw [show msg = (stampAll r 0 ps).get ⟨iv, ih⟩ from hi.symm]
    exact stampAll_count_get r ps hm iv ih
  rw [hc, List.get?_eq_get ih, hi]

theorem drainPass_split (cs : Nat → Nat) :
    ∀ L : List QMsg,
      ((drainPass cs L).2.2 ++ (drainPass cs L).2.1).Perm L := by
  intro L
  induction L generalizing cs with
  | nil => simp [drainPass]
  | cons m rest ih =>
      by_cases hd : m.count = cs m.src
      · simpa [drainPass, hd] using (ih (bumpCounter cs m.src)).cons m
      · simp only [drainPass, hd, if_neg, if_false]
        exact List.perm_middle.trans ((ih cs).cons m)

theorem drainPass_inv (r : Nat) (sent : List QMsg)
    (hm : sent.length < 65536) :
    ∀ (L : List QMsg) (cs : Nat → Nat),
      (∀ msg ∈ L, msg.ordered = true) →
      (fromSrc r L).Pairwise countLe →
      ((fromSrc r L).map QMsg.count).Nodup →
      (∀ msg ∈ fromSrc r L, sent.get? msg.count = some msg) →
      (∀ msg ∈ fromSrc r L, cs r ≤ msg.count) →
      cs r ≤ sent.length →
      ∃ k,
        (drainPass cs L).1 r = cs r + k ∧ cs r + k ≤ sent.length ∧
        (fromSrc r (drainPass cs L).2.2).map QMsg.count =
          List.range' (cs r) k ∧
        sent.take (cs r) ++ fromSrc r (drainPass cs L).2.2 =
          sent.take (cs r + k) ∧
        (∀ msg ∈ fromSrc r (drainPass cs L).2.1, cs r + k < msg.count) := by
  intro L
  induction L with
  | nil =>
      intro cs _ _ _ _ _ hn
      exact ⟨0, by simp [drainPass, fromSrc], by simpa using hn,
        by simp [drainPass, fromSrc], by simp [drainPass, fromSrc],
        by simp [drainPass, fromSrc]⟩
  | cons m rest ih =>
      intro cs hord hsort hnodup hmem hge hn
      by_cases hp : (m.ordered && m.src == r) = true
      · have hsrc : m.src = r := by
          simpa using (Bool.and_eq_true _ _ |>.mp hp).2
        rw [fromSrc_cons_pos r m rest hp] at hsort hnodup hmem hge
        have hmemm := hmem m (List.mem_cons_self m _)
        have hcountlt : m.count < sent.length := by
          obtain ⟨h, _⟩ := List.get?_eq_some.mp hmemm
          exact h
        by_cases hd : m.count = cs m.src
        · -- the head message matches its counter: it is dispatched
          have hdr : m.count = cs r := by rw [hd, hsrc]
          have hcslt : cs r < sent.length := hdr ▸ hcountlt
          have hbump : bumpCounter cs m.src r = cs r + 1 := by
            unfold bumpCounter bump16
            rw [if_pos hsrc.symm]
            omega
          have ihh := ih (bumpCounter cs m.src)
            (fun x hx => hord x (List.mem_cons_of_mem m hx))
            hsort.of_cons (List.Nodup.of_cons hnodup)
            (fun x hx => hmem x (List.mem_cons_of_mem m hx))
            (fun x hx => by
              rw [hbump]
              have hle : m.count ≤ x.count :=
                (List.pairwise_cons.mp hsort).1 x hx
              have hne : x.count ≠ m.count := by
                intro he
                have := (List.nodup_cons.mp hnodup).1
                exact this (he ▸ List.mem_map_of_mem QMsg.count hx)
              omega)
            (by rw [hbump]; omega)
          obtain ⟨k, h1, h2, h3, h4, h5⟩ := ihh
          rw [hbump] at h1 h2 h3 h4 h5
          refine ⟨k + 1, ?_, by omega, ?_, ?_, ?_⟩
          · simp only [drainPass, hd, if_pos]
            rw [h1]; omega
          · simp only [drainPass, hd, if_pos]
            rw [fromSrc_cons_pos r m _ hp]
            simp only [List.map_cons, h3, hdr]
            rw [List.range'_succ]
          · simp only [drainPass, hd, if_pos]
            rw [fromSrc_cons_pos r m _ hp]
            have htake : sent.take (cs r) ++ [m] = sent.take (cs r + 1) := by
              rw [List.take_succ]
              have : sent[cs r]? = some m := by
                rw [← List.get?_eq_getElem?]
                rw [← hdr]
                exact hmemm
              rw [this]
              rfl
            calc sent.take (cs r) ++ m :: fromSrc r (drainPass (bumpCounter cs m.src) rest).2.2
                = (sent.take (cs r) ++ [m]) ++
                    fromSrc r (drainPass (bumpCounter cs m.src) rest).2.2 := by
                  simp
              _ = sent.take (cs r + 1) ++
                    fromSrc r (drainPass (bumpCounter cs m.src) rest).2.2 := by
                  rw [htake]
              _ = sent.take (cs r + 1 + k) := h4
              _ = sent.take (cs r + (k + 1)) := by ring_nf
          · simp only [drainPass, hd, if_pos]
            intro x hx
            have := h5 x hx
            omega
        · -- the head message is out of order: it stays in the queue
          have hdr : cs r < m.count := by
            have := hge m (List.mem_cons_self m _)
            have hne : m.count ≠ cs r := by rw [hsrc] at hd; exact hd
            omega
          have ihh := ih cs
            (fun x hx => hord x (List.mem_cons_of_mem m hx))
            hsort.of_cons (List.Nodup.of_cons hnodup)
            (fun x hx => hmem x (List.mem_cons_of_mem m hx))
            (fun x hx => hge x (List.mem_cons_of_mem m hx)) hn
          obtain ⟨k, h1, h2, h3, h4, h5⟩ := ihh
          have hk : k = 0 := by
            by_contra hk0
            have hk1 : 0 < k := Nat.pos_of_ne_zero hk0
            have hcsmem : cs r ∈ (fromSrc r (drainPass cs rest).2.2).map QMsg.count := by
              rw [h3]
              exact List.mem_range'.mpr ⟨0, by omega, by omega⟩
            rw [List.mem_map] at hcsmem
            obtain ⟨x, hx, hxc⟩ := hcsmem
            have hxrest : x ∈ fromSrc r rest := by
              obtain ⟨hx1, hx2, hx3⟩ := mem_fromSrc r x _ hx
              have : x ∈ rest :=
                (drainPass_split cs rest).mem_iff.mp (List.mem_append_left _ hx1)
              rw [fromSrc, List.mem_filter]
              exact ⟨this, by simp [hx2, hx3]⟩
            have hle : m.count ≤ x.count :=
              (List.pairwise_cons.mp hsort).1 x hxrest
            omega
          subst hk
          refine ⟨0, ?_, by omega, ?_, ?_, ?_⟩
          · simp only [drainPass, hd, if_neg, if_false]
            exact h1
          · simp only [drainPass, hd, if_neg, if_false]
            exact h3
          · simp only [drainPass, hd, if_neg, if_false]
            exact h4
          · simp only [drainPass, hd, if_neg, if_false]
            rw [fromSrc_cons_pos r m _ hp]
            intro x hx
            rcases List.mem_cons.mp hx with hx | hx
            · subst hx; omega
            · exact h5 x hx
      · -- head message not an ordered message of source r
        have hordm := hord m (List.mem_cons_self m _)
        have hpf : (m.ordered && m.src == r) = false := Bool.not_eq_true _ |>.mp hp
        have hsrc : m.src ≠ r := by
          intro he
          rw [hordm, he] at hpf
          simp at hpf
        have hrs : r ≠ m.src := fun he => hsrc he.symm
        rw [fromSrc_cons_neg r m rest hpf] at hsort hnodup hmem hge
        by_cases hd : m.count = cs m.src
        · have hb : bumpCounter cs m.src r = cs r := by
            unfold bumpCounter
            rw [if_neg hrs]
          have ihh := ih (bumpCounter cs m.src)
            (fun x hx => hord x (List.mem_cons_of_mem m hx))
            hsort hnodup hmem
            (fun x hx => by rw [hb]; exact hge x hx)
            (by rw [hb]; exact hn)
          obtain ⟨k, h1, h2, h3, h4, h5⟩ := ihh
          rw [hb] at h1 h2 h3 h4 h5
          refine ⟨k, ?_, h2, ?_, ?_, ?_⟩
          · simp only [drainPass, hd, if_pos]
            exact h1
          · simp only [drainPass, hd, if_pos]
            rw [fromSrc_cons_neg r m _ hpf]
            exact h3
          · simp only [drainPass, hd, if_pos]
            rw [fromSrc_cons_neg r m _ hpf]
            exact h4
          · simp only [drainPass, hd, if_pos]
            exact h5
        · have ihh := ih cs
            (fun x hx => hord x (List.mem_cons_of_mem m hx))
            hsort hnodup hmem hge hn
          obtain ⟨k, h1, h2, h3, h4, h5⟩ := ihh
          refine ⟨k, ?_, h2, ?_, ?_, ?_⟩
          · simp only [drainPass, hd, if_neg, if_false]
            exact h1
          · simp only [drainPass, hd, if_neg, if_false]
            exact h3
          · simp only [drainPass, hd, if_neg, if_false]
            exact h4
          · simp only [drainPass, hd, if_neg, if_false]
            rw [fromSrc_cons_neg r m _ hpf]
            exact h5

theorem fromSrc_cons_decomp (r : Nat) (m : QMsg) (xs : List QMsg) :
    fromSrc r (m :: xs) = fromSrc r [m] ++ fromSrc r xs := by
  by_cases hp : (m.ordered && m.src == r) = true
  · rw [fromSrc_cons_pos r m xs hp, fromSrc_cons_pos r m [] hp]
    rfl
  · rw [Bool.not_eq_true] at hp
    rw [fromSrc_cons_neg r m xs hp, fromSrc_cons_neg r m [] hp]
    rfl

theorem queue_facts (r : Nat) (sent A : List QMsg) (n : Nat) (s : RecvState)
    (hsnodup : sent.Nodup)
    (hcnodup : (sent.map QMsg.count).Nodup)
    (huniq : ∀ msg ∈ sent, sent.get? msg.count = some msg)
    (hinv : RecvInv r sent A n s)
    (hsub : (↑A : Multiset QMsg) ≤ ↑sent) :
    (∀ msg ∈ fromSrc r s.q, sent.get? msg.count = some msg) ∧
    (∀ msg ∈ fromSrc r s.q, n ≤ msg.count) ∧
    ((fromSrc r s.q).map QMsg.count).Nodup := by
  obtain ⟨h1, h2, h3, h4, h5⟩ := hinv
  have hle : (↑(sent.take n) + ↑(fromSrc r s.q) : Multiset QMsg) ≤ ↑sent := by
    rw [Multiset.coe_add]
    calc (↑(sent.take n ++ fromSrc r s.q) : Multiset QMsg)
        = ↑A := Multiset.coe_eq_coe.mpr h4
      _ ≤ ↑sent := hsub
  have hqle : (↑(fromSrc r s.q) : Multiset QMsg) ≤ ↑sent :=
    le_trans (le_add_self) hle
  have hmemq : ∀ msg ∈ fromSrc r s.q, msg ∈ sent := by
    intro msg hmsg
    exact Multiset.mem_coe.mp
      (Multiset.mem_of_le hqle (Multiset.mem_coe.mpr hmsg))
  refine ⟨fun msg hmsg => huniq msg (hmemq msg hmsg), fun msg hmsg => ?_, ?_⟩
  · by_contra hlt
    push_neg at hlt
    have hget := huniq msg (hmemq msg hmsg)
    have htake : msg ∈ sent.take n := by
      have : (sent.take n).get? msg.count = some msg := by
        rw [List.get?_take hlt]
        exact hget
      exact List.get?_mem this
    have hcount2 : 2 ≤ Multiset.count msg (↑(sent.take n) + ↑(fromSrc r s.q)) := by
      rw [Multiset.count_add]
      have c1 : 0 < Multiset.count msg (↑(sent.take n) : Multiset QMsg) :=
        Multiset.count_pos.mpr (Multiset.mem_coe.mpr htake)
      have c2 : 0 < Multiset.count msg (↑(fromSrc r s.q) : Multiset QMsg) :=
        Multiset.count_pos.mpr (Multiset.mem_coe.mpr hmsg)
      omega
    have hcount1 : Multiset.count msg (↑sent : Multiset QMsg) ≤ 1 :=
      Multiset.nodup_iff_count_le_one.mp (Multiset.coe_nodup.mpr hsnodup) msg
    have := Multiset.count_le_of_le msg hle
    omega
  · have hmle : (↑((fromSrc r s.q).map QMsg.count) : Multiset Nat) ≤
        ↑(sent.map QMsg.count) := by
      rw [← Multiset.map_coe, ← Multiset.map_coe]
      exact Multiset.map_le_map hqle
    exact Multiset.coe_nodup.mp
      (Multiset.nodup_of_le hmle (Multiset.coe_nodup.mpr hcnodup))

theorem processMessage_inv (maxq r : Nat) (sent A : List QMsg)
    (hm : sent.length < 65536)
    (huniq : ∀ msg ∈ sent, sent.get? msg.count = some msg)
    (n : Nat) (s s2 : RecvState) (m : QMsg)
    (hinv : RecvInv r sent A n s)
    (hsub : (↑(A ++ fromSrc r [m]) : Multiset QMsg) ≤ ↑sent)
    (hok : processMessage maxq s m = Except.ok s2) :
    ∃ n2, RecvInv r sent (A ++ fromSrc r [m]) n2 s2 := by
  obtain ⟨h1, h2, h3, h4, h5⟩ := hinv
  unfold processMessage at hok
  by_cases hc : m.ordered = false ∨ m.count = s.recv_counters m.src
  · rw [if_pos hc] at hok
    have hs2 : s2 =
        { s with
          recv_counters :=
            if m.ordered then bumpCounter s.recv_counters m.src
            else s.recv_counters,
          dispatched := s.dispatched ++ [m] } := by
      cases hok
      rfl
    by_cases hp : (m.ordered && m.src == r) = true
    · -- an ordered message of source r dispatched immediately
      have hordm : m.ordered = true := (Bool.and_eq_true _ _ |>.mp hp).1
      have hsrc : m.src = r := by
        simpa using (Bool.and_eq_true _ _ |>.mp hp).2
      have hcnt : m.count = n := by
        rcases hc with hc | hc
        · rw [hordm] at hc; cases hc
        · rw [hc, hsrc, h2]
      have hFm : fromSrc r [m] = [m] := fromSrc_cons_pos r m [] hp
      have hmem : m ∈ sent := by
        have : m ∈ (↑(A ++ fromSrc r [m]) : Multiset QMsg) := by
          rw [Multiset.mem_coe, hFm]
          exact List.mem_append_right A (List.mem_cons_self m [])
        exact Multiset.mem_coe.mp (Multiset.mem_of_le hsub this)
      have hget := huniq m hmem
      have hnlt : n < sent.length := by
        obtain ⟨hlt, _⟩ := List.get?_eq_some.mp hget
        rw [hcnt] at hlt
        exact hlt
      have htake : sent.take n ++ [m] = sent.take (n + 1) := by
        rw [List.take_succ]
        have hg : sent[n]? = some m := by
          rw [← List.get?_eq_getElem?, ← hcnt]
          exact hget
        rw [hg]
        rfl
      subst hs2
      refine ⟨n + 1, ?_, ?_, by omega, ?_, h5⟩
      · calc fromSrc r (s.dispatched ++ [m])
            = fromSrc r s.dispatched ++ fromSrc r [m] :=
              fromSrc_append r s.dispatched [m]
          _ = sent.take n ++ [m] := by rw [h1, hFm]
          _ = sent.take (n + 1) := htake
      · simp only [hordm, if_pos]
        unfold bumpCounter bump16
        rw [if_pos hsrc.symm, h2]
        omega
      · rw [hFm, ← htake, List.append_assoc]
        refine (List.perm_append_comm.append_left (sent.take n)).trans ?_
        rw [← List.append_assoc]
        exact h4.append_right [m]
    · -- dispatched message that is not an ordered message of source r
      have hFm : fromSrc r [m] = [] := by
        rw [Bool.not_eq_true] at hp
        rw [fromSrc_cons_neg r m [] hp]
        rfl
      subst hs2
      refine ⟨n, ?_, ?_, h3, ?_, h5⟩
      · calc fromSrc r (s.dispatched ++ [m])
            = fromSrc r s.dispatched ++ fromSrc r [m] :=
              fromSrc_append r s.dispatched [m]
          _ = sent.take n := by rw [h1, hFm, List.append_nil]
      · cases hmo : m.ordered with
        | false => simp only [hmo, if_neg, if_false]; exact h2
        | true =>
            have hsrc : m.src ≠ r := by
              intro he
              rw [Bool.not_eq_true, hmo, he] at hp
              simp at hp
            simp only [hmo, if_pos]
            unfold bumpCounter
            rw [if_neg (fun he => hsrc he.symm)]
            exact h2
      · rw [hFm, List.append_nil]
        exact h4
  · -- out-of-order ordered message: parked in the queue
    rw [if_neg hc] at hok
    push_neg at hc
    obtain ⟨hc1, _⟩ := hc
    have hordm : m.ordered = true := Bool.ne_false_iff.mp hc1
    by_cases hq : maxq ≤ s.q.length
    · rw [if_pos hq] at hok
      exact Except.noConfusion hok
    · rw [if_neg hq] at hok
      have hs2 : s2 = { s with q := s.q ++ [m] } := by
        cases hok
        rfl
      subst hs2
      by_cases hp : (m.ordered && m.src == r) = true
      · have hFm : fromSrc r [m] = [m] := fromSrc_cons_pos r m [] hp
        refine ⟨n, h1, h2, h3, ?_, ?_⟩
        · rw [hFm]
          have he : sent.take n ++ fromSrc r (s.q ++ [m]) =
              (sent.take n ++ fromSrc r s.q) ++ [m] := by
            rw [fromSrc_append r s.q [m], hFm, List.append_assoc]
          rw [he]
          exact h4.append_right [m]
        · intro x hx
          rcases List.mem_append.mp hx with hx | hx
          · exact h5 x hx
          · rw [List.mem_singleton.mp hx]
            exact hordm
      · have hFm : fromSrc r [m] = [] := by
          rw [Bool.not_eq_true] at hp
          rw [fromSrc_cons_neg r m [] hp]
          rfl
        refine ⟨n, h1, h2, h3, ?_, ?_⟩
        · rw [hFm, List.append_nil]
          rw [fromSrc_append r s.q [m], hFm, List.append_nil]
          exact h4
        · intro x hx
          rcases List.mem_append.mp hx with hx | hx
          · exact h5 x hx
          · rw [List.mem_singleton.mp hx]
            exact hordm

theorem foldl_processMessage_inv (maxq r : Nat) (sent : List QMsg)
    (hm : sent.length < 65536)
    (huniq : ∀ msg ∈ sent, sent.get? msg.count = some msg) :
    ∀ (batch : List QMsg) (A : List QMsg) (n : Nat) (s s2 : RecvState),
      RecvInv r sent A n s →
      (↑(A ++ fromSrc r batch) : Multiset QMsg) ≤ ↑sent →
      batch.foldlM (processMessage maxq) s = Except.ok s2 →
      ∃ n2, RecvInv r sent (A ++ fromSrc r batch) n2 s2 := by
  intro batch
  induction batch with
  | nil =>
      intro A n s s2 hinv _ hok
      cases hok
      exact ⟨n, by simpa [fromSrc] using hinv⟩
  | cons m batch ih =>
      intro A n s s2 hinv hsub hok
      rw [List.foldlM_cons] at hok
      cases h1 : processMessage maxq s m with
      | error e =>
          rw [h1] at hok
          exact Except.noConfusion hok
      | ok s1 =>
          rw [h1] at hok
          have hdec : fromSrc r (m :: batch) = fromSrc r [m] ++ fromSrc r batch :=
            fromSrc_cons_decomp r m batch
          have hsub1 : (↑(A ++ fromSrc r [m]) : Multiset QMsg) ≤ ↑sent := by
            refine le_trans ?_ hsub
            rw [hdec, ← List.append_assoc]
            rw [← Multiset.coe_add, ← Multiset.coe_add]
            exact self_le_add_right _ _
          obtain ⟨n1, hinv1⟩ :=
            processMessage_inv maxq r sent A hm huniq n s s1 m hinv hsub1 h1
          have hsub2 : (↑((A ++ fromSrc r [m]) ++ fromSrc r batch) :
              Multiset QMsg) ≤ ↑sent := by
            rw [List.append_assoc, ← hdec]
            exact hsub
          obtain ⟨n2, hinv2⟩ := ih (A ++ fromSrc r [m]) n1 s1 s2 hinv1 hsub2 hok
          rw [List.append_assoc, ← hdec] at hinv2
          exact ⟨n2, hinv2⟩

theorem processBatch_inv (maxq r : Nat) (sent : List QMsg)
    (hm : sent.length < 65536)
    (hsnodup : sent.Nodup)
    (hcnodup : (sent.map QMsg.count).Nodup)
    (huniq : ∀ msg ∈ sent, sent.get? msg.count = some msg)
    (batch : List QMsg) (A : List QMsg) (n : Nat) (s s2 : RecvState)
    (hinv : RecvInv r sent A n s)
    (hsub : (↑(A ++ fromSrc r batch) : Multiset QMsg) ≤ ↑sent)
    (hok : processBatch maxq s batch = Except.ok s2) :
    ∃ n2, RecvInv r sent (A ++ fromSrc r batch) n2 s2 ∧ PostDrain r s2 := by
  unfold processBatch at hok
  cases hfold : batch.foldlM (processMessage maxq) s with
  | error e =>
      rw [hfold] at hok
      exact Except.noConfusion hok
  | ok s1 =>
      rw [hfold] at hok
      have hs2 : s2 =
          ⟨(drainPass s1.recv_counters (s1.q.insertionSort countLe)).1,
           (drainPass s1.recv_counters (s1.q.insertionSort countLe)).2.1,
           s1.dispatched ++
             (drainPass s1.recv_counters (s1.q.insertionSort countLe)).2.2⟩ := by
        cases hok
        rfl
      obtain ⟨n1, hinv1⟩ :=
        foldl_processMessage_inv maxq r sent hm huniq batch A n s s1 hinv hsub hfold
      obtain ⟨h1, h2, h3, h4, h5⟩ := hinv1
      obtain ⟨qf1, qf2, qf3⟩ :=
        queue_facts r sent (A ++ fromSrc r batch) n1 s1 hsnodup hcnodup huniq
          ⟨h1, h2, h3, h4, h5⟩ hsub
      have hsortperm : (s1.q.insertionSort countLe).Perm s1.q :=
        List.perm_insertionSort countLe s1.q
      have hFperm : (fromSrc r (s1.q.insertionSort countLe)).Perm
          (fromSrc r s1.q) := fromSrc_perm r hsortperm
      have hdrain := drainPass_inv r sent hm (s1.q.insertionSort countLe)
        s1.recv_counters
        (fun x hx => h5 x (hsortperm.mem_iff.mp hx))
        (List.Pairwise.sublist (List.filter_sublist _)
          (List.sorted_insertionSort countLe s1.q))
        (((hFperm.map QMsg.count).nodup_iff).mpr qf3)
        (fun x hx => qf1 x (hFperm.mem_iff.mp hx))
        (fun x hx => by
          rw [h2]
          exact qf2 x (hFperm.mem_iff.mp hx))
        (by rw [h2]; exact h3)
      obtain ⟨k, d1, d2, d3, d4, d5⟩ := hdrain
      rw [h2] at d1 d2 d4 d5
      subst hs2
      refine ⟨n1 + k, ⟨?_, d1, d2, ?_, ?_⟩, ?_⟩
      · rw [fromSrc_append, h1, d4]
      · have he : sent.take (n1 + k) ++
            fromSrc r (drainPass s1.recv_counters (s1.q.insertionSort countLe)).2.1 =
            sent.take n1 ++
              (fromSrc r (drainPass s1.recv_counters (s1.q.insertionSort countLe)).2.2 ++
               fromSrc r (drainPass s1.recv_counters (s1.q.insertionSort countLe)).2.1) := by
          rw [← d4, List.append_assoc]
        rw [he]
        refine List.Perm.trans ?_ h4
        refine List.Perm.append_left (sent.take n1) ?_
        have hp2 : (fromSrc r ((drainPass s1.recv_counters
            (s1.q.insertionSort countLe)).2.2 ++
            (drainPass s1.recv_counters (s1.q.insertionSort countLe)).2.1)).Perm
            (fromSrc r s1.q) :=
          fromSrc_perm r ((drainPass_split s1.recv_counters
            (s1.q.insertionSort countLe)).trans hsortperm)
        rw [fromSrc_append] at hp2
        exact hp2
      · intro x hx
        have hxs : x ∈ s1.q.insertionSort countLe :=
          (drainPass_split s1.recv_counters (s1.q.insertionSort countLe)).mem_iff.mp
            (List.mem_append_right _ hx)
        exact h5 x (hsortperm.mem_iff.mp hxs)
      · intro x hx
        show (drainPass s1.recv_counters (s1.q.insertionSort countLe)).1 r < x.count
        rw [d1]
        exact d5 x hx

theorem runServer_fold_inv (maxq r : Nat) (sent : List QMsg)
    (hm : sent.length < 65536)
    (hsnodup : sent.Nodup)
    (hcnodup : (sent.map QMsg.count).Nodup)
    (huniq : ∀ msg ∈ sent, sent.get? msg.count = some msg) :
    ∀ (batches : List (List QMsg)) (A : List QMsg) (n : Nat) (s s2 : RecvState),
      RecvInv r sent A n s →
      PostDrain r s →
      (↑(A ++ fromSrc r batches.flatten) : Multiset QMsg) ≤ ↑sent →
      batches.foldlM (processBatch maxq) s = Except.ok s2 →
      ∃ n2, RecvInv r sent (A ++ fromSrc r batches.flatten) n2 s2 ∧
        PostDrain r s2 := by
  intro batches
  induction batches with
  | nil =>
      intro A n s s2 hinv hpost _ hok
      cases hok
      exact ⟨n, by simpa [fromSrc] using hinv, hpost⟩
  | cons batch batches ih =>
      intro A n s s2 hinv _ hsub hok
      rw [List.foldlM_cons] at hok
      cases h1 : processBatch maxq s batch with
      | error e =>
          rw [h1] at hok
          exact Except.noConfusion hok
      | ok s1 =>
          rw [h1] at hok
          have hdec : fromSrc r (batch :: batches).flatten =
              fromSrc r batch ++ fromSrc r batches.flatten := by
            rw [List.flatten_cons, fromSrc_append]
          have hsub1 : (↑(A ++ fromSrc r batch) : Multiset QMsg) ≤ ↑sent := by
            refine le_trans ?_ hsub
            rw [hdec, ← List.append_assoc]
            rw [← Multiset.coe_add, ← Multiset.coe_add]
            exact self_le_add_right _ _
          obtain ⟨n1, hinv1, hpost1⟩ :=
            processBatch_inv maxq r sent hm hsnodup hcnodup huniq batch A n s s1
              hinv hsub1 h1
          have hsub2 : (↑((A ++ fromSrc r batch) ++ fromSrc r batches.flatten) :
              Multiset QMsg) ≤ ↑sent := by
            rw [List.append_assoc, ← hdec]
            exact hsub
          obtain ⟨n2, hinv2, hpost2⟩ :=
            ih (A ++ fromSrc r batch) n1 s1 s2 hinv1 hpost1 hsub2 hok
          rw [List.append_assoc, ← hdec] at hinv2
          exact ⟨n2, hinv2, hpost2⟩

end RMI

/-- Claim C1: per-peer FIFO of ordered messages.  The sender stamps ordered
messages for one destination with consecutive 16-bit sequence numbers
(`stampAll`); the receiver's server loop dispatches an arriving message
immediately iff it is unordered or its stamp equals the source's receive
counter, parks it otherwise, and after each wakeup sorts the out-of-order
queue by stamp and drains it.  If transport delivers to the wakeups, in any
order and grouping, exactly the ordered messages the sender stamped (fewer
than 2^16 of them, the counter width), and the server loop never fails, the
handlers for that sender's ordered messages run in exactly the send order. -/
theorem rmi_ordered_fifo (maxq r : Nat) (payloads : List Nat)
    (batches : List (List RMI.QMsg)) (s : RMI.RecvState)
    (hlen : payloads.length < 65536)
    (hdeliver : (RMI.fromSrc r batches.flatten).Perm (RMI.stampAll r 0 payloads))
    (hrun : RMI.runServer maxq batches = Except.ok s) :
    RMI.fromSrc r s.dispatched = RMI.stampAll r 0 payloads ∧
    (RMI.fromSrc r s.dispatched).map RMI.QMsg.payload = payloads := by
  have hslen : (RMI.stampAll r 0 payloads).length = payloads.length :=
    RMI.stampAll_length r 0 payloads
  have hm : (RMI.stampAll r 0 payloads).length < 65536 := by omega
  have hsnodup := RMI.stampAll_nodup r payloads hlen
  have hcnodup := RMI.stampAll_counts_nodup r payloads hlen
  have huniq := RMI.stampAll_mem_get r payloads hlen
  have hinv0 : RMI.RecvInv r (RMI.stampAll r 0 payloads) [] 0 RMI.initRecv := by
    refine ⟨rfl, rfl, Nat.zero_le _, ?_, ?_⟩
    · simp [RMI.initRecv, RMI.fromSrc]
    · intro x hx
      simp [RMI.initRecv] at hx
  have hpost0 : RMI.PostDrain r RMI.initRecv := by
    intro x hx
    simp [RMI.initRecv, RMI.fromSrc] at hx
  have hsub : (↑(([] : List RMI.QMsg) ++ RMI.fromSrc r batches.flatten) :
      Multiset RMI.QMsg) ≤ ↑(RMI.stampAll r 0 payloads) := by
    rw [List.nil_append]
    exact le_of_eq (Multiset.coe_eq_coe.mpr hdeliver)
  obtain ⟨n2, hinv, hpost⟩ :=
    RMI.runServer_fold_inv maxq r (RMI.stampAll r 0 payloads) hm hsnodup hcnodup
      huniq batches [] 0 RMI.initRecv s hinv0 hpost0 hsub hrun
  rw [List.nil_append] at hinv
  obtain ⟨h1, h2, h3, h4, h5⟩ := hinv
  have hperm : ((RMI.stampAll r 0 payloads).take n2 ++
      RMI.fromSrc r s.q).Perm (RMI.stampAll r 0 payloads) :=
    h4.trans hdeliver
  have hfull : n2 = (RMI.stampAll r 0 payloads).length := by
    by_contra hne
    have hlt : n2 < (RMI.stampAll r 0 payloads).length := by omega
    have hcoe : (↑((RMI.stampAll r 0 payloads).take n2) +
        ↑(RMI.fromSrc r s.q) : Multiset RMI.QMsg) =
        ↑((RMI.stampAll r 0 payloads).take n2) +
          ↑((RMI.stampAll r 0 payloads).drop n2) := by
      rw [Multiset.coe_add, Multiset.coe_add]
      rw [Multiset.coe_eq_coe]
      refine hperm.trans ?_
      rw [List.take_append_drop]
    have hqeq : (↑(RMI.fromSrc r s.q) : Multiset RMI.QMsg) =
        ↑((RMI.stampAll r 0 payloads).drop n2) :=
      (add_right_inj _).mp hcoe
    have hdropmem : (RMI.stampAll r 0 payloads).get ⟨n2, hlt⟩ ∈
        RMI.fromSrc r s.q := by
      rw [← Multiset.mem_coe, hqeq, Multiset.mem_coe]
      rw [List.drop_eq_get_cons hlt]
      exact List.mem_cons_self _ _
    have := hpost _ hdropmem
    rw [h2, RMI.stampAll_count_get r payloads hlen n2 hlt] at this
    omega
  constructor
  · rw [h1, hfull, List.take_length]
  · rw [h1, hfull, List.take_length]
    exact RMI.stampAll_map_payload r 0 payloads

/-- Claim C1 witness: two ordered messages delivered in the wrong order across
two wakeups are re-sequenced: the handlers run in send order. -/
theorem rmi_ordered_fifo_witness :
    ∃ s, RMI.runServer 4 [[⟨0, true, 1, 20⟩], [⟨0, true, 0, 10⟩]] =
        Except.ok s ∧
      RMI.fromSrc 0 s.dispatched = RMI.stampAll 0 0 [10, 20] := by
  cases hrun : RMI.runServer 4 [[⟨0, true, 1, 20⟩], [⟨0, true, 0, 10⟩]] with
  | error e =>
      have hok : (RMI.runServer 4
          [[⟨0, true, 1, 20⟩], [⟨0, true, 0, 10⟩]]).isOk = true := by decide
      rw [hrun] at hok
      exact Bool.noConfusion hok
  | ok s =>
      refine ⟨s, rfl, ?_⟩
      exact (rmi_ordered_fifo 4 0 [10, 20]
        [[⟨0, true, 1, 20⟩], [⟨0, true, 0, 10⟩]] s (by decide) (by decide)
        hrun).1

end Madness
